import Mathlib

/-!
Shallow embedding of `perceptron.go` (a single-layer perceptron classifying
2-D points against a random line `y = a*x + b`).

Modelling conventions:
* Go `float32` values (weights, bias, learning rate) are modelled as exact
  rationals `ℚ`; `int32` values as `ℤ` (no quantity in the program approaches
  the `int32` bounds).
* A Go slice is a `List`; out-of-range indexing (a Go runtime panic) is
  modelled by propagating `none`, so every operation that can panic returns
  an `Option`.
* Methods on the mutable receiver `*Perceptron` are modelled by returning the
  receiver's final state (`Process` returns it unchanged, `Adjust` returns
  the updated one).
* The process-wide sequential generator `math/rand` is modelled as a stream
  of raw natural draws together with a position; `rand.Int31n n` consumes one
  raw draw and reduces it modulo `n`, which yields exactly the values
  `0 ≤ v < n` that the Go function can return.
-/

/-- State of `type Perceptron struct`: the input weights and the bias. -/
structure Perceptron where
  weights : List ℚ
  bias : ℚ
deriving DecidableEq

/-- The Heaviside step function (`heaviside` in the source): 0 for negative
input, 1 otherwise. -/
def heaviside (f : ℚ) : ℤ :=
  if f < 0 then 0 else 1

/-- Loop body of `Process`: `for i, input := range inputs { sum += float32(input) * p.weights[i] }`.
Indexing `weights[i]` out of range is a Go panic, modelled as `none`. -/
def processLoop (weights : List ℚ) (inputs : List ℤ) (i : ℕ) (sum : ℚ) : Option ℚ :=
  match inputs with
  | [] => some sum
  | input :: rest =>
    match weights[i]? with
    | none => none
    | some w => processLoop weights rest (i + 1) (sum + (input : ℚ) * w)

/-- `func (p *Perceptron) Process(inputs []int32) int32`: weighs the inputs,
sums them with the bias, applies the Heaviside step. The receiver is returned
alongside the result to make its (non-)mutation explicit. -/
def Process (p : Perceptron) (inputs : List ℤ) : Option (ℤ × Perceptron) :=
  (processLoop p.weights inputs 0 p.bias).map (fun s => (heaviside s, p))

/-- Loop body of `Adjust`: `for i, input := range inputs { p.weights[i] += float32(input) * float32(delta) * learningRate }`. -/
def adjustLoop (weights : List ℚ) (inputs : List ℤ) (i : ℕ) (delta : ℤ) (rate : ℚ) :
    Option (List ℚ) :=
  match inputs with
  | [] => some weights
  | input :: rest =>
    match weights[i]? with
    | none => none
    | some w =>
      adjustLoop (weights.set i (w + (input : ℚ) * (delta : ℚ) * rate)) rest (i + 1) delta rate

/-- `func (p *Perceptron) Adjust(inputs []int32, delta int32, learningRate float32)`:
updates each weight by `input * delta * learningRate`, then the bias by
`delta * learningRate`. Returns the updated perceptron (`none` on a panic). -/
def Adjust (p : Perceptron) (inputs : List ℤ) (delta : ℤ) (rate : ℚ) : Option Perceptron :=
  (adjustLoop p.weights inputs 0 delta rate).map
    (fun w => { weights := w, bias := p.bias + (delta : ℚ) * rate })

/-- `func f(x int32) int32 { return a*x + b }` — the separation line, with the
global parameters `a`, `b` passed explicitly. -/
def f (a b x : ℤ) : ℤ :=
  a * x + b

/-- `func isAboveLine(point []int32, f func(int32) int32) int32`: 1 if the
point is strictly above the line, else 0. Reads `point[0]` and `point[1]`,
panicking (`none`) if the point has fewer than two coordinates. -/
def isAboveLine (point : List ℤ) (fl : ℤ → ℤ) : Option ℤ :=
  match point[0]?, point[1]? with
  | some x, some y => some (if y > fl x then 1 else 0)
  | _, _ => none

/-- The process-wide sequential random generator: a stream of raw draws and a
current position. -/
structure RNG where
  stream : ℕ → ℕ
  pos : ℕ

/-- `rand.Int31n(n)`: consumes one raw draw and returns a value in `[0, n)`. -/
def RNG.int31n (g : RNG) (n : ℕ) : ℤ × RNG :=
  (((g.stream g.pos % n : ℕ) : ℤ), { g with pos := g.pos + 1 })

/-- Random sample point shared by `train` and `verify`:
`[]int32{rand.Int31n(201) - 101, rand.Int31n(201) - 101}`. -/
def randomPoint (g : RNG) : List ℤ × RNG :=
  let p1 := g.int31n 201
  let p2 := p1.2.int31n 201
  ([p1.1 - 101, p2.1 - 101], p2.2)

/-- Loop of `func train(p *Perceptron, iters int, rate float32)`, counting the
remaining iterations: draw a point, run `Process`, compare with
`isAboveLine`, and `Adjust` by the signed error. -/
def trainAux (a b : ℤ) (p : Perceptron) (n : ℕ) (rate : ℚ) (g : RNG) :
    Option (Perceptron × RNG) :=
  match n with
  | 0 => some (p, g)
  | Nat.succ m =>
    let pt := randomPoint g
    match Process p pt.1, isAboveLine pt.1 (f a b) with
    | some res, some expected =>
      match Adjust res.2 pt.1 (expected - res.1) rate with
      | some p2 => trainAux a b p2 m rate pt.2
      | none => none
    | _, _ => none

/-- `func train(p *Perceptron, iters int, rate float32)`: `iters` is a Go
`int`; the loop `for i := 0; i < iters; i++` runs `max iters 0` times. -/
def train (a b : ℤ) (p : Perceptron) (iters : ℤ) (rate : ℚ) (g : RNG) :
    Option (Perceptron × RNG) :=
  trainAux a b p iters.toNat rate g

/-- Loop of `func verify(p *Perceptron) int32`, counting the remaining
trials: draw a point, run `Process`, and count a correct answer when the
result matches `isAboveLine`. Drawing calls go to the external renderer and
are out of the model. -/
def verifyAux (a b : ℤ) (p : Perceptron) (n : ℕ) (correct : ℤ) (g : RNG) :
    Option (ℤ × RNG) :=
  match n with
  | 0 => some (correct, g)
  | Nat.succ m =>
    let pt := randomPoint g
    match Process p pt.1, isAboveLine pt.1 (f a b) with
    | some res, some expected =>
      verifyAux a b p m (if res.1 = expected then correct + 1 else correct) pt.2
    | _, _ => none

/-- `func verify(p *Perceptron) int32`: 100 trials, starting from 0 correct
answers. -/
def verify (a b : ℤ) (p : Perceptron) (g : RNG) : Option (ℤ × RNG) :=
  verifyAux a b p 100 0 g

/-- Setup of the line parameters in `main`:
`a = rand.Int31n(11) - 6; b = rand.Int31n(101) - 51`. -/
def setupLine (g : RNG) : (ℤ × ℤ) × RNG :=
  let ra := g.int31n 11
  let rb := ra.2.int31n 101
  ((ra.1 - 6, rb.1 - 51), rb.2)

/-- The weighted sum `Σ inputs[i] * weights[i]` used to state the spec's
contract for `Process`. -/
def dotSum (inputs : List ℤ) (weights : List ℚ) : ℚ :=
  (List.zipWith (fun x w => (x : ℚ) * w) inputs weights).sum

lemma dotSum_nil (weights : List ℚ) : dotSum [] weights = 0 := by
  simp [dotSum]

lemma dotSum_cons (x : ℤ) (rest : List ℤ) (w : ℚ) (ws : List ℚ) :
    dotSum (x :: rest) (w :: ws) = (x : ℚ) * w + dotSum rest ws := by
  simp [dotSum]

lemma processLoop_spec (inputs : List ℤ) :
    ∀ (weights : List ℚ) (i : ℕ) (sum : ℚ), i + inputs.length ≤ weights.length →
      processLoop weights inputs i sum = some (sum + dotSum inputs (weights.drop i)) := by
  induction inputs with
  | nil =>
    intro weights i sum _
    simp [processLoop, dotSum_nil]
  | cons x rest ih =>
    intro weights i sum h
    have hi : i < weights.length := by
      simp only [List.length_cons] at h
      omega
    have hdrop : weights.drop i = weights[i] :: weights.drop (i + 1) :=
      List.drop_eq_getElem_cons hi
    simp only [processLoop, List.getElem?_eq_getElem hi]
    rw [ih weights (i + 1) (sum + (x : ℚ) * weights[i])
      (by simp only [List.length_cons] at h; omega)]
    rw [hdrop, dotSum_cons]
    ring_nf

lemma processLoop_none (inputs : List ℤ) :
    ∀ (weights : List ℚ) (i : ℕ) (sum : ℚ),
      weights.length < i + inputs.length → i ≤ weights.length →
      processLoop weights inputs i sum = none := by
  induction inputs with
  | nil =>
    intro weights i sum h hle
    simp only [List.length_nil, Nat.add_zero] at h
    omega
  | cons x rest ih =>
    intro weights i sum h hle
    rcases Nat.lt_or_ge i weights.length with hi | hi
    · simp only [processLoop, List.getElem?_eq_getElem hi]
      exact ih weights (i + 1) (sum + (x : ℚ) * weights[i])
        (by simp only [List.length_cons] at h; omega) (by omega)
    · simp [processLoop, List.getElem?_eq_none hi]

lemma adjustLoop_spec (inputs : List ℤ) :
    ∀ (weights : List ℚ) (i : ℕ) (delta : ℤ) (rate : ℚ),
      i + inputs.length ≤ weights.length →
      ∃ w2, adjustLoop weights inputs i delta rate = some w2 ∧
        w2.length = weights.length ∧
        (∀ j, j < i → w2[j]? = weights[j]?) ∧
        (∀ j, i + inputs.length ≤ j → w2[j]? = weights[j]?) ∧
        (∀ j, i ≤ j → j < i + inputs.length →
          w2[j]? = (weights[j]?).map
            (fun w => w + ((inputs[j - i]?.getD 0 : ℤ) : ℚ) * (delta : ℚ) * rate)) := by
  induction inputs with
  | nil =>
    intro weights i delta rate _
    refine ⟨weights, rfl, rfl, fun j _ => rfl, fun j _ => rfl, fun j h1 h2 => ?_⟩
    simp only [List.length_nil] at h2
    omega
  | cons x rest ih =>
    intro weights i delta rate h
    have hi : i < weights.length := by
      simp only [List.length_cons] at h
      omega
    have hset :
        (weights.set i (weights[i] + (x : ℚ) * (delta : ℚ) * rate)).length = weights.length :=
      List.length_set weights i _
    obtain ⟨w2, heq, hlen, hlo, hhi, hmid⟩ :=
      ih (weights.set i (weights[i] + (x : ℚ) * (delta : ℚ) * rate)) (i + 1) delta rate
        (by rw [hset]; simp only [List.length_cons] at h; omega)
    refine ⟨w2, ?_, by rw [hlen, hset], ?_, ?_, ?_⟩
    · simp only [adjustLoop, List.getElem?_eq_getElem hi]
      exact heq
    · intro j hj
      rw [hlo j (by omega), List.getElem?_set_ne (by omega)]
    · intro j hj
      simp only [List.length_cons] at hj
      rw [hhi j (by omega), List.getElem?_set_ne (by omega)]
    · intro j hj1 hj2
      simp only [List.length_cons] at hj2
      rcases Nat.eq_or_lt_of_le hj1 with hji | hji
      · subst hji
        rw [hlo i (by omega), List.getElem?_set_self hi, List.getElem?_eq_getElem hi]
        simp
      · have hj1' : i + 1 ≤ j := hji
        rw [hmid j hj1' (by omega), List.getElem?_set_ne (by omega)]
        have hsub : j - i = (j - (i + 1)) + 1 := by omega
        rw [hsub, List.getElem?_cons_succ]

lemma adjustLoop_none (inputs : List ℤ) :
    ∀ (weights : List ℚ) (i : ℕ) (delta : ℤ) (rate : ℚ),
      weights.length < i + inputs.length → i ≤ weights.length →
      adjustLoop weights inputs i delta rate = none := by
  induction inputs with
  | nil =>
    intro weights i delta rate h hle
    simp only [List.length_nil, Nat.add_zero] at h
    omega
  | cons x rest ih =>
    intro weights i delta rate h hle
    rcases Nat.lt_or_ge i weights.length with hi | hi
    · simp only [adjustLoop, List.getElem?_eq_getElem hi]
      exact ih (weights.set i (weights[i] + (x : ℚ) * (delta : ℚ) * rate)) (i + 1) delta rate
        (by rw [List.length_set]; simp only [List.length_cons] at h; omega)
        (by rw [List.length_set]; omega)
    · simp [adjustLoop, List.getElem?_eq_none hi]

/-- C2: for every perceptron state, input vector of matching length, delta
and learning rate, `Adjust` succeeds and sets each new weight `j` to
`old weights[j] + inputs[j] * delta * rate` exactly, and the new bias to
`old bias + delta * rate` exactly. -/
theorem adjust_linear_update (p : Perceptron) (inputs : List ℤ) (delta : ℤ) (rate : ℚ)
    (h : inputs.length = p.weights.length) :
    ∃ q, Adjust p inputs delta rate = some q ∧
      q.bias = p.bias + (delta : ℚ) * rate ∧
      q.weights.length = p.weights.length ∧
      ∀ j, (hj1 : j < inputs.length) → (hj2 : j < p.weights.length) →
        q.weights[j]? = some (p.weights[j] + (inputs[j] : ℚ) * (delta : ℚ) * rate) := by
  obtain ⟨w2, heq, hlen, _, _, hmid⟩ :=
    adjustLoop_spec inputs p.weights 0 delta rate (by omega)
  refine ⟨{ weights := w2, bias := p.bias + (delta : ℚ) * rate }, ?_, rfl, hlen, ?_⟩
  · unfold Adjust
    rw [heq]
    rfl
  · intro j hj1 hj2
    have := hmid j (Nat.zero_le j) (by omega)
    rw [List.getElem?_eq_getElem hj2] at this
    simp only [Nat.sub_zero, List.getElem?_eq_getElem hj1, Option.getD_some,
      Option.map_some'] at this
    simpa using this

/-- Witness for C2 at a concrete perceptron, input, delta and rate. -/
theorem adjust_linear_update_witness :
    ∃ q, Adjust { weights := [(1 : ℚ), 2], bias := 3 } [4, 5] 1 (1 / 2) = some q ∧
      q.bias = (3 : ℚ) + ((1 : ℤ) : ℚ) * (1 / 2) ∧
      q.weights.length = ([(1 : ℚ), 2] : List ℚ).length ∧
      ∀ j, (hj1 : j < ([4, 5] : List ℤ).length) → (hj2 : j < ([(1 : ℚ), 2] : List ℚ).length) →
        q.weights[j]? =
          some (([(1 : ℚ), 2] : List ℚ)[j] + ((([4, 5] : List ℤ)[j] : ℤ) : ℚ) *
            ((1 : ℤ) : ℚ) * (1 / 2)) :=
  adjust_linear_update { weights := [(1 : ℚ), 2], bias := 3 } [4, 5] 1 (1 / 2) rfl

/-- C6: `Adjust` with delta = 0 is a no-op: for every matching-length input
vector and every learning rate it returns the perceptron unchanged. -/
theorem adjust_zero_delta_noop (p : Perceptron) (inputs : List ℤ) (rate : ℚ)
    (h : inputs.length = p.weights.length) :
    Adjust p inputs 0 rate = some p := by
  obtain ⟨w2, heq, hlen, _, hhi, hmid⟩ :=
    adjustLoop_spec inputs p.weights 0 0 rate (by omega)
  have hw : w2 = p.weights := by
    apply List.ext_getElem?
    intro j
    rcases Nat.lt_or_ge j inputs.length with hj | hj
    · rw [hmid j (Nat.zero_le j) (by omega)]
      rcases hx : p.weights[j]? with _ | w
      · rfl
      · simp
    · exact hhi j (by omega)
  unfold Adjust
  rw [heq, hw]
  simp

/-- Witness for C6 at a concrete perceptron and input. -/
theorem adjust_zero_delta_noop_witness :
    Adjust { weights := [(1 : ℚ), 2], bias := 3 } [4, 5] 0 (1 / 2) =
      some { weights := [(1 : ℚ), 2], bias := 3 } :=
  adjust_zero_delta_noop { weights := [(1 : ℚ), 2], bias := 3 } [4, 5] (1 / 2) rfl

/-- C1: for every perceptron state and input vector of matching length,
`Process` returns the Heaviside step of `bias + Σ inputs[i] * weights[i]`:
1 when that sum is ≥ 0 and 0 otherwise, never any other value, leaving the
perceptron unchanged. -/
theorem process_heaviside_of_weighted_sum (p : Perceptron) (inputs : List ℤ)
    (h : inputs.length = p.weights.length) :
    Process p inputs =
      some ((if 0 ≤ p.bias + dotSum inputs p.weights then 1 else 0), p) := by
  unfold Process
  rw [processLoop_spec inputs p.weights 0 p.bias (by omega)]
  simp only [List.drop_zero, Option.map_some', heaviside]
  split_ifs <;> first | rfl | (exfalso; linarith)

/-- Witness for C1 at a concrete perceptron and input. -/
theorem process_heaviside_of_weighted_sum_witness :
    Process { weights := [(1 : ℚ), 1], bias := 0 } [1, 2] =
      some ((if 0 ≤ (0 : ℚ) + dotSum [1, 2] [(1 : ℚ), 1] then 1 else 0),
        { weights := [(1 : ℚ), 1], bias := 0 }) :=
  process_heaviside_of_weighted_sum { weights := [(1 : ℚ), 1], bias := 0 } [1, 2] rfl

/-- C3: the two boundary policies are asymmetric: a point exactly on the line
(`y = a*x + b`) is classified below (0) by `isAboveLine`, while a perceptron
whose weighted sum plus bias is exactly 0 answers above (1) in `Process`. -/
theorem boundary_asymmetry (a b x : ℤ) (p : Perceptron) (inputs : List ℤ)
    (h : inputs.length = p.weights.length) (h0 : p.bias + dotSum inputs p.weights = 0) :
    isAboveLine [x, f a b x] (f a b) = some 0 ∧ Process p inputs = some (1, p) := by
  constructor
  · simp [isAboveLine]
  · unfold Process
    rw [processLoop_spec inputs p.weights 0 p.bias (by omega)]
    simp only [List.drop_zero, h0, Option.map_some', heaviside]
    norm_num

/-- Witness for C3 at the concrete point (5, f(5)) on the line y = x + 2 and
a concrete perceptron with zero weighted sum. -/
theorem boundary_asymmetry_witness :
    isAboveLine [5, f 1 2 5] (f 1 2) = some 0 ∧
      Process { weights := [(1 : ℚ)], bias := 0 } [0] =
        some (1, { weights := [(1 : ℚ)], bias := 0 }) :=
  boundary_asymmetry 1 2 5 { weights := [(1 : ℚ)], bias := 0 } [0] rfl (by simp [dotSum])

/-- C7 counterexample: with one input against two weights (a dimension
mismatch) `Adjust` does not fail at all: it silently updates only the first
weight and the bias. -/
theorem mismatch_no_failfast_cex :
    ([3] : List ℤ).length ≠ ([(1 : ℚ), 2] : List ℚ).length ∧
    Adjust { weights := [(1 : ℚ), 2], bias := 0 } [3] 1 1 =
      some { weights := [(4 : ℚ), 2], bias := 1 } := by
  constructor
  · decide
  · norm_num [Adjust, adjustLoop]

/-- C7 amended: on a length mismatch there is no dimension-mismatch error:
when the inputs are longer than the weights, `Process` and `Adjust` hit an
index-out-of-range panic; when they are shorter, both succeed silently,
using (resp. updating) only the first `inputs.length` weights. -/
theorem mismatch_behavior (p : Perceptron) (inputs : List ℤ) (delta : ℤ) (rate : ℚ) :
    (p.weights.length < inputs.length →
      Process p inputs = none ∧ Adjust p inputs delta rate = none) ∧
    (inputs.length ≤ p.weights.length →
      (∃ r, Process p inputs = some r) ∧ (∃ q, Adjust p inputs delta rate = some q)) := by
  constructor
  · intro hlt
    constructor
    · unfold Process
      rw [processLoop_none inputs p.weights 0 p.bias (by omega) (by omega)]
      rfl
    · unfold Adjust
      rw [adjustLoop_none inputs p.weights 0 delta rate (by omega) (by omega)]
      rfl
  · intro hle
    constructor
    · refine ⟨(heaviside (p.bias + dotSum inputs (p.weights.drop 0)), p), ?_⟩
      unfold Process
      rw [processLoop_spec inputs p.weights 0 p.bias (by omega)]
      rfl
    · obtain ⟨w2, heq, _⟩ := adjustLoop_spec inputs p.weights 0 delta rate (by omega)
      refine ⟨{ weights := w2, bias := p.bias + (delta : ℚ) * rate }, ?_⟩
      unfold Adjust
      rw [heq]
      rfl

/-- Witness for the C7 amended theorem: two inputs against one weight make
both operations panic. -/
theorem mismatch_behavior_witness :
    Process { weights := [(1 : ℚ)], bias := 0 } [1, 2] = none ∧
      Adjust { weights := [(1 : ℚ)], bias := 0 } [1, 2] 1 1 = none :=
  (mismatch_behavior { weights := [(1 : ℚ)], bias := 0 } [1, 2] 1 1).1 (by decide)

/-- C8: `Process` is pure with respect to the perceptron: the receiver it
returns is the unchanged input state, and two calls with the same weights,
bias and inputs return the same result. -/
theorem process_pure (p : Perceptron) (inputs : List ℤ) :
    (∀ r q, Process p inputs = some (r, q) → q = p) ∧
    (∀ p2 inputs2, p2.weights = p.weights → p2.bias = p.bias → inputs2 = inputs →
      Process p2 inputs2 = Process p inputs) := by
  constructor
  · intro r q hq
    unfold Process at hq
    rcases hx : processLoop p.weights inputs 0 p.bias with _ | s
    · rw [hx] at hq
      simp at hq
    · rw [hx] at hq
      simp only [Option.map_some', Option.some.injEq, Prod.mk.injEq] at hq
      exact hq.2.symm
  · intro p2 inputs2 hw hb hi
    have hp : p2 = p := by
      obtain ⟨w1, b1⟩ := p
      obtain ⟨wq, bq⟩ := p2
      simp only [Perceptron.mk.injEq]
      simp only at hw hb
      exact ⟨hw, hb⟩
    rw [hp, hi]

/-- Witness for C8: applying the frame property at a concrete state. -/
theorem process_pure_witness :
    ({ weights := [(1 : ℚ)], bias := 0 } : Perceptron) = { weights := [(1 : ℚ)], bias := 0 } :=
  (process_pure { weights := [(1 : ℚ)], bias := 0 } [2]).1 1
    { weights := [(1 : ℚ)], bias := 0 } (by norm_num [Process, processLoop, heaviside])

/-- C4 counterexample: no state of the generator can produce a sample
coordinate equal to 100, so the claimed range [-101, 100] is not the range of
the sample points. -/
theorem sample_range_cex :
    ¬ ∃ (g : RNG) (x y : ℤ), (randomPoint g).1 = [x, y] ∧ (x = 100 ∨ y = 100) := by
  rintro ⟨g, x, y, heq, hor⟩
  simp only [randomPoint, RNG.int31n, List.cons.injEq, and_true] at heq
  obtain ⟨hx, hy⟩ := heq
  have h1 : g.stream g.pos % 201 < 201 := Nat.mod_lt _ (by norm_num)
  have h2 : g.stream (g.pos + 1) % 201 < 201 := Nat.mod_lt _ (by norm_num)
  rcases hor with h | h <;> omega

/-- C4 amended: every random sample point generated during training and
verification has both coordinates in [-101, 99] inclusive, and every value
in that range is attainable. -/
theorem sample_range_amended :
    (∀ g : RNG, ∃ x y : ℤ, (randomPoint g).1 = [x, y] ∧
      -101 ≤ x ∧ x ≤ 99 ∧ -101 ≤ y ∧ y ≤ 99) ∧
    (∀ v : ℤ, -101 ≤ v → v ≤ 99 → ∃ g : RNG, (randomPoint g).1 = [v, v]) := by
  constructor
  · intro g
    have h1 : g.stream g.pos % 201 < 201 := Nat.mod_lt _ (by norm_num)
    have h2 : g.stream (g.pos + 1) % 201 < 201 := Nat.mod_lt _ (by norm_num)
    exact ⟨((g.stream g.pos % 201 : ℕ) : ℤ) - 101,
      ((g.stream (g.pos + 1) % 201 : ℕ) : ℤ) - 101, rfl,
      by omega, by omega, by omega, by omega⟩
  · intro v hv1 hv2
    refine ⟨⟨fun _ => (v + 101).toNat, 0⟩, ?_⟩
    have hlt : (v + 101).toNat % 201 = (v + 101).toNat := Nat.mod_eq_of_lt (by omega)
    simp only [randomPoint, RNG.int31n, List.cons.injEq, and_true]
    omega

/-- Witness for the C4 amended theorem: the boundary value 99 is attained. -/
theorem sample_range_amended_witness :
    ∃ g : RNG, (randomPoint g).1 = [(99 : ℤ), 99] :=
  sample_range_amended.2 99 (by norm_num) (by norm_num)

/-- C5 counterexample: the line gradient `a` can never be 5 and the offset
`b` can never be 50, so the claimed ranges [-6, 5] and [-51, 50] are wrong. -/
theorem line_params_cex :
    ¬ ∃ g : RNG, (setupLine g).1.1 = 5 ∨ (setupLine g).1.2 = 50 := by
  rintro ⟨g, hor⟩
  have h1 : g.stream g.pos % 11 < 11 := Nat.mod_lt _ (by norm_num)
  have h2 : g.stream (g.pos + 1) % 101 < 101 := Nat.mod_lt _ (by norm_num)
  rcases hor with h | h <;> (simp only [setupLine, RNG.int31n] at h; omega)

/-- C5 amended: the line parameters satisfy a ∈ [-6, 4] and b ∈ [-51, 49]
inclusive, and every pair in those ranges is attainable. -/
theorem line_params_amended :
    (∀ g : RNG, -6 ≤ (setupLine g).1.1 ∧ (setupLine g).1.1 ≤ 4 ∧
      -51 ≤ (setupLine g).1.2 ∧ (setupLine g).1.2 ≤ 49) ∧
    (∀ va vb : ℤ, -6 ≤ va → va ≤ 4 → -51 ≤ vb → vb ≤ 49 →
      ∃ g : RNG, (setupLine g).1 = (va, vb)) := by
  constructor
  · intro g
    have h1 : g.stream g.pos % 11 < 11 := Nat.mod_lt _ (by norm_num)
    have h2 : g.stream (g.pos + 1) % 101 < 101 := Nat.mod_lt _ (by norm_num)
    simp only [setupLine, RNG.int31n]
    omega
  · intro va vb ha1 ha2 hb1 hb2
    refine ⟨⟨fun n => if n = 0 then (va + 6).toNat else (vb + 51).toNat, 0⟩, ?_⟩
    have hva : (va + 6).toNat % 11 = (va + 6).toNat := Nat.mod_eq_of_lt (by omega)
    have hvb : (vb + 51).toNat % 101 = (vb + 51).toNat := Nat.mod_eq_of_lt (by omega)
    simp only [setupLine, RNG.int31n, Prod.mk.injEq]
    norm_num
    omega

/-- Witness for the C5 amended theorem: the boundary pair (4, 49) is
attained. -/
theorem line_params_amended_witness :
    ∃ g : RNG, (setupLine g).1 = ((4 : ℤ), (49 : ℤ)) :=
  line_params_amended.2 4 49 (by norm_num) (by norm_num) (by norm_num) (by norm_num)

/-- C10: `train` with a non-positive iteration count is a no-op: the
perceptron is returned unchanged and the generator state (position included)
is untouched, so no random draw is consumed. -/
theorem train_nonpos_noop (a b : ℤ) (p : Perceptron) (iters : ℤ) (rate : ℚ) (g : RNG)
    (h : iters ≤ 0) : train a b p iters rate g = some (p, g) := by
  unfold train
  rw [Int.toNat_of_nonpos h]
  rfl

/-- Witness for C10 at a concrete perceptron and iteration count -3. -/
theorem train_nonpos_noop_witness :
    train 1 2 { weights := [(1 : ℚ)], bias := 0 } (-3) (1 / 10) ⟨fun _ => 0, 0⟩ =
      some ({ weights := [(1 : ℚ)], bias := 0 }, ⟨fun _ => 0, 0⟩) :=
  train_nonpos_noop 1 2 { weights := [(1 : ℚ)], bias := 0 } (-3) (1 / 10) ⟨fun _ => 0, 0⟩
    (by norm_num)

/-- Sample point consumed by trial `i` of a loop starting at generator state
`g`: each trial consumes exactly two raw draws. -/
def pointAt (g : RNG) (i : ℕ) : List ℤ :=
  [((g.stream (g.pos + 2 * i) % 201 : ℕ) : ℤ) - 101,
   ((g.stream (g.pos + 2 * i + 1) % 201 : ℕ) : ℤ) - 101]

/-- Whether trial `i` of `verify` (run from generator state `g`) answers
correctly: the `Process` result equals the `isAboveLine` label of the
trial's point. -/
def correctAt (a b : ℤ) (p : Perceptron) (g : RNG) (i : ℕ) : Bool :=
  decide ((Process p (pointAt g i)).map Prod.fst = isAboveLine (pointAt g i) (f a b))

lemma randomPoint_fst (g : RNG) : (randomPoint g).1 = pointAt g 0 := rfl

lemma randomPoint_snd (g : RNG) : (randomPoint g).2 = ⟨g.stream, g.pos + 2⟩ := rfl

lemma pointAt_shift (g : RNG) (i : ℕ) :
    pointAt ⟨g.stream, g.pos + 2⟩ i = pointAt g (i + 1) := by
  simp only [pointAt]
  have h1 : g.pos + 2 + 2 * i = g.pos + 2 * (i + 1) := by ring
  rw [h1]

lemma process_len2 (p : Perceptron) (pt : List ℤ) (hlen : pt.length = 2)
    (h2 : 2 ≤ p.weights.length) :
    Process p pt = some (heaviside (p.bias + dotSum pt (p.weights.drop 0)), p) := by
  unfold Process
  rw [processLoop_spec pt p.weights 0 p.bias (by omega)]
  rfl

lemma verifyAux_succ (a b : ℤ) (p : Perceptron) (m : ℕ) (c : ℤ) (g : RNG)
    (res e : ℤ) (hproc : Process p (randomPoint g).1 = some (res, p))
    (hlab : isAboveLine (randomPoint g).1 (f a b) = some e) :
    verifyAux a b p (m + 1) c g =
      verifyAux a b p m (if res = e then c + 1 else c) (randomPoint g).2 := by
  simp only [verifyAux, hproc, hlab]

lemma verifyAux_spec (a b : ℤ) (p : Perceptron) (h2 : 2 ≤ p.weights.length) :
    ∀ (n : ℕ) (g : RNG) (c : ℤ),
      verifyAux a b p n c g =
        some (c + ((List.range n).countP (fun i => correctAt a b p g i) : ℤ),
          ⟨g.stream, g.pos + 2 * n⟩) := by
  intro n
  induction n with
  | zero =>
    intro g c
    simp [verifyAux]
  | succ m ih =>
    intro g c
    have hproc := process_len2 p (pointAt g 0) rfl h2
    obtain ⟨e, he⟩ : ∃ e, isAboveLine (pointAt g 0) (f a b) = some e := ⟨_, rfl⟩
    rw [verifyAux_succ a b p m c g _ e (by rw [randomPoint_fst]; exact hproc)
      (by rw [randomPoint_fst]; exact he)]
    rw [randomPoint_snd, ih ⟨g.stream, g.pos + 2⟩ _]
    have hshift : ∀ i, correctAt a b p (⟨g.stream, g.pos + 2⟩ : RNG) i =
        correctAt a b p g (i + 1) := by
      intro i
      unfold correctAt
      rw [pointAt_shift]
    have hcount : (List.range (m + 1)).countP (fun i => correctAt a b p g i) =
        (List.range m).countP (fun i => correctAt a b p (⟨g.stream, g.pos + 2⟩ : RNG) i) +
          (if correctAt a b p g 0 then 1 else 0) := by
      rw [List.range_succ_eq_map, List.countP_cons, List.countP_map]
      congr 1
      exact List.countP_congr (fun i _ => by simp [Function.comp, hshift])
    have hc0 : correctAt a b p g 0 =
        decide (heaviside (p.bias + dotSum (pointAt g 0) (p.weights.drop 0)) = e) := by
      unfold correctAt
      refine decide_eq_decide.mpr ?_
      rw [hproc, he]
      simp
    rw [hcount, hc0]
    simp only [decide_eq_true_eq]
    by_cases hve : heaviside (p.bias + dotSum (pointAt g 0) (p.weights.drop 0)) = e
    · rw [if_pos hve, if_pos hve]
      simp only [Option.some.injEq, Prod.mk.injEq, RNG.mk.injEq, true_and]
      constructor
      · push_cast
        ring
      · omega
    · rw [if_neg hve, if_neg hve]
      simp only [Option.some.injEq, Prod.mk.injEq, RNG.mk.injEq, true_and]
      constructor
      · push_cast
        ring
      · omega

/-- C9: `verify` returns the number of its 100 trials in which the
perceptron's `Process` result equals the ground-truth `isAboveLine` label
for the same point, and that count lies between 0 and 100. -/
theorem verify_counts_matches (a b : ℤ) (p : Perceptron) (g : RNG)
    (h2 : 2 ≤ p.weights.length) :
    ∃ c g2, verify a b p g = some (c, g2) ∧
      c = ((List.range 100).countP (fun i => correctAt a b p g i) : ℤ) ∧
      0 ≤ c ∧ c ≤ 100 := by
  refine ⟨((List.range 100).countP (fun i => correctAt a b p g i) : ℤ),
    ⟨g.stream, g.pos + 2 * 100⟩, ?_, rfl, ?_, ?_⟩
  · unfold verify
    rw [verifyAux_spec a b p h2 100 g 0]
    norm_num
  · exact Int.natCast_nonneg _
  · have hle : (List.range 100).countP (fun i => correctAt a b p g i) ≤
        (List.range 100).length := List.countP_le_length (fun i => correctAt a b p g i)
    rw [List.length_range] at hle
    exact_mod_cast hle

/-- Witness for C9 at a concrete perceptron and generator state. -/
theorem verify_counts_matches_witness :
    ∃ c g2, verify 1 2 { weights := [(1 : ℚ), 1], bias := 0 } ⟨fun _ => 0, 0⟩ =
        some (c, g2) ∧
      c = ((List.range 100).countP
        (fun i => correctAt 1 2 { weights := [(1 : ℚ), 1], bias := 0 } ⟨fun _ => 0, 0⟩ i) : ℤ) ∧
      0 ≤ c ∧ c ≤ 100 :=
  verify_counts_matches 1 2 { weights := [(1 : ℚ), 1], bias := 0 } ⟨fun _ => 0, 0⟩
    (by norm_num)
